import Mathlib

/-!
Verification of the layered arithmetic circuit evaluator and wiring-predicate
encoder of a GKR implementation, together with its Fiat-Shamir transcript and
Groth16 trusted-setup helpers.

The Rust source is shallowly embedded: machine integers (`usize`) become `Nat`,
vectors become `List`, a computation that can hit a Rust `panic!` (or an
out-of-bounds slice index, which panics) is embedded as a value of `Panic α`,
and the finite field is a generic commutative ring.
-/

/-- Outcome of a Rust computation: either the value it returns, or the message
of the panic it aborts with (a `panic!` call or an out-of-bounds index). -/
inductive Panic (α : Type) where
  | ok (a : α) : Panic α
  | panicked (msg : String) : Panic α
deriving DecidableEq

/-- Apply a function to the value of a successful outcome. -/
def Panic.map {α β : Type} (f : α → β) : Panic α → Panic β
  | .ok a => .ok (f a)
  | .panicked m => .panicked m

/-- Modelled from the spec (the data-model file `gkr/src/primitives.rs` is not
among the visible sources; §3 of the spec defines it): the closed gate-type
tag. -/
inductive GateType where
  | Add : GateType
  | Mul : GateType
deriving DecidableEq

/-- Modelled from the spec: a binary gate, `{ gate_type, inputs: (usize, usize) }`;
the inputs are indices into the next layer's output vector. -/
structure Gate where
  g_type : GateType
  inputs : ℕ × ℕ
deriving DecidableEq

/-- Modelled from the spec: an ordered sequence of gates. -/
structure CircuitLayer where
  layer : List Gate
deriving DecidableEq

/-- Modelled from the spec: an ordered sequence of layers, layer 0 the output
layer, the last layer the innermost one (reading the raw input vector). -/
structure Circuit where
  layers : List CircuitLayer
deriving DecidableEq

/-- Modelled from the spec: the per-layer evaluation trace produced by one
evaluation run. -/
structure CircuitEvaluation (F : Type) where
  layers : List (List F)
deriving DecidableEq

section Evaluator

variable {F : Type} [Add F] [Mul F]

/-- One gate of the Rust closure in `Circuit::evaluate`:
`current_input[e.inputs[0]] op current_input[e.inputs[1]]`. The unchecked
slice indexing panics when an input index is out of range. -/
def evalGate (cur : List F) (g : Gate) : Panic F :=
  match cur[g.inputs.1]?, cur[g.inputs.2]? with
  | some x, some y =>
    match g.g_type with
    | .Add => .ok (x + y)
    | .Mul => .ok (x * y)
  | _, _ => .panicked "index out of bounds"

/-- The `layer.layer.iter().map(...).collect()` of `Circuit::evaluate`,
evaluating the gates of one layer left to right against the current vector. -/
def evalLayer (cur : List F) : List Gate → Panic (List F)
  | [] => .ok []
  | g :: gs =>
    match evalGate cur g with
    | .ok v =>
      match evalLayer cur gs with
      | .ok vs => .ok (v :: vs)
      | .panicked m => .panicked m
    | .panicked m => .panicked m

/-- The loop of `Circuit::evaluate` over `self.layers.iter().rev()`: `ls` is
the reversed layer list still to process, `cur` the current input vector,
`acc` the trace accumulated so far (oldest first, as the Rust `Vec` pushes). -/
def evaluateGo : List CircuitLayer → List F → List (List F) → Panic (List (List F))
  | [], _, acc => .ok acc
  | l :: rest, cur, acc =>
    match evalLayer cur l.layer with
    | .ok out => evaluateGo rest out (acc ++ [out])
    | .panicked m => .panicked m

/-- `Circuit::evaluate`: seed the trace with the raw input, fold the layers
innermost-first, and reverse the trace at the end. -/
def Circuit.evaluate (c : Circuit) (input : List F) : Panic (CircuitEvaluation F) :=
  match evaluateGo c.layers.reverse input [input] with
  | .ok ls => .ok ⟨ls.reverse⟩
  | .panicked m => .panicked m

end Evaluator

/-- The §3 structural invariant, phrased over the reversed layer list as the
evaluator consumes it: each layer's gate inputs are in range of the vector it
reads (first the raw input of length `n`, then the previous layer's output,
whose length is that layer's gate count). -/
def chainValidB : List CircuitLayer → ℕ → Bool
  | [], _ => true
  | l :: rest, n =>
    (l.layer.all fun g => decide (g.inputs.1 < n) && decide (g.inputs.2 < n)) &&
      chainValidB rest l.layer.length

/-- A circuit/input-length pair satisfying the §3 invariant: every gate input
index is in range for the layer or raw input vector it references. -/
def Circuit.validInput (c : Circuit) (inputLen : ℕ) : Prop :=
  chainValidB c.layers.reverse inputLen = true

instance (c : Circuit) (n : ℕ) : Decidable (c.validInput n) := by
  unfold Circuit.validInput
  infer_instance

/-- The two-layer circuit of the repository's `test_circuit_evaluation_1`:
layer 0 a single Mul gate on (0,1), layer 1 an Add gate on (0,1) and a Mul
gate on (2,3). -/
def circuitOne : Circuit :=
  ⟨[⟨[⟨.Mul, (0, 1)⟩]⟩, ⟨[⟨.Add, (0, 1)⟩, ⟨.Mul, (2, 3)⟩]⟩]⟩

/-- The two-layer circuit of the repository's `test_circuit_evaluation_2`:
layer 0 has two Mul gates, layer 1 four Mul gates; its layer sizes (2 and 4)
do not follow the canonical doubling pattern (1, 2, 4, ...). -/
def circuitTwo : Circuit :=
  ⟨[⟨[⟨.Mul, (0, 1)⟩, ⟨.Mul, (2, 3)⟩]⟩,
    ⟨[⟨.Mul, (0, 0)⟩, ⟨.Mul, (1, 1)⟩, ⟨.Mul, (1, 2)⟩, ⟨.Mul, (3, 3)⟩]⟩]⟩

/-- A one-layer circuit whose single gate references input index 5, out of
range for a length-2 input vector. -/
def circuitBadIndex : Circuit :=
  ⟨[⟨[⟨.Add, (0, 5)⟩]⟩]⟩

/-- Modelled from the spec: `compute_mle_num_var_from_layer_index` lives in
`gkr/src/utils.rs`, which is not among the visible sources. Its call site in
`circuit.rs` passes only `layer_index`, and §4.2 of the spec describes such an
implementation as deriving the variable count from the layer index alone under
an assumed canonical doubling structure: layer `k` has `2^k` gates (`m = k`)
and reads a vector of `2^(k+1)` entries (`n = k + 1`), so the count is
`m + 2n = k + 2(k+1)`. -/
def compute_mle_num_var_from_layer_index (layer_index : ℕ) : ℕ :=
  layer_index + 2 * (layer_index + 1)

/-- The size of the vector read by the gates of layer `layer_index` (§4.2):
the gate count of the next layer, or the raw input vector length (supplied as
`input_len`) for the innermost layer. -/
def nextLayerSize (c : Circuit) (layer_index input_len : ℕ) : ℕ :=
  if layer_index + 1 < c.layers.length then
    (c.layers.getD (layer_index + 1) ⟨[]⟩).layer.length
  else input_len

/-- Modelled from the spec: `get_gate_properties` lives in `gkr/src/utils.rs`,
which is not among the visible sources. §4.2: the flat hypercube index of a
gate at address `i` with inputs `(a, b)` is `(i <<< (2n)) ||| (a <<< n) ||| b`,
the concatenation of the three binary blocks, most significant first, where
`n` is the bit width of an address into the next layer. -/
def get_gate_properties (n i a b : ℕ) : ℕ :=
  i <<< (2 * n) ||| a <<< n ||| b

/-- The accumulation loop of `get_add_n_mul_mle` (circuit.rs): walk the
layer's gates with their enumeration index `i`, pushing each gate's packed
index into the add vector or the mul vector according to its type. -/
def collectGateProps (n : ℕ) : ℕ → List Gate → List ℕ × List ℕ
  | _, [] => ([], [])
  | i, g :: gs =>
    let rest := collectGateProps n (i + 1) gs
    match g.g_type with
    | .Add => (get_gate_properties n i g.inputs.1 g.inputs.2 :: rest.1, rest.2)
    | .Mul => (rest.1, get_gate_properties n i g.inputs.1 g.inputs.2 :: rest.2)

/-- `ceil(log2 size)`, the number of bits needed to address `size` entries
(§4.2): the smallest `k` with `size ≤ 2 ^ k`, in a form the kernel can
evaluate (`Nat.clog` is defined by well-founded recursion; the lemma
`bitWidth_eq_clog` below identifies the two). -/
def bitWidth (size : ℕ) : ℕ :=
  ((List.range (size + 1)).find? fun k => size ≤ 2 ^ k).getD size

/-- The add-indices vector built by `get_add_n_mul_mle` for a layer, with the
bit width `n` derived from the actual size of the referenced vector. -/
def addUsizeVec (c : Circuit) (layer_index input_len : ℕ) : List ℕ :=
  (collectGateProps (bitWidth (nextLayerSize c layer_index input_len)) 0
    (c.layers.getD layer_index ⟨[]⟩).layer).1

/-- The mul-indices vector built by `get_add_n_mul_mle` for a layer. -/
def mulUsizeVec (c : Circuit) (layer_index input_len : ℕ) : List ℕ :=
  (collectGateProps (bitWidth (nextLayerSize c layer_index input_len)) 0
    (c.layers.getD layer_index ⟨[]⟩).layer).2

/-- Modelled from the spec: the dense multilinear polynomial type is an
external collaborator (§6), constructed from a dense evaluation table of
length `2^num_vars`. -/
structure Multilinear (F : Type) where
  evaluations : List F
  num_vars : ℕ
deriving DecidableEq

/-- Basis weight of table index `j` at a point: variable `k` of the point
corresponds to bit `v - 1 - k` of `j` (most-significant block first, matching
the §4.2 packing). -/
def basisWeight {F : Type} [CommRing F] (v j : ℕ) (point : List F) : F :=
  ((List.range v).map fun k =>
    if Nat.testBit j (v - 1 - k) then point.getD k 0 else 1 - point.getD k 0).prod

/-- Modelled from the spec (§6): evaluate the multilinear extension of the
dense table at a field point of matching dimension, `none` for malformed
input (a point whose length is not the variable count). -/
def Multilinear.evaluate {F : Type} [CommRing F] (p : Multilinear F)
    (point : List F) : Option F :=
  if point.length = p.num_vars then
    some (((List.range (2 ^ p.num_vars)).map fun j =>
      p.evaluations.getD j 0 * basisWeight p.num_vars j point).sum)
  else none

/-- Modelled from the spec: `usize_vec_to_mle` lives in `gkr/src/utils.rs`,
which is not among the visible sources. §4.2: build a dense table of length
`2^v`, the multiplicative identity at the hot indices and the additive
identity elsewhere, and hand it to the external multilinear constructor. -/
def usize_vec_to_mle (F : Type) [Zero F] [One F] (idxs : List ℕ) (v : ℕ) :
    Multilinear F :=
  ⟨(List.range (2 ^ v)).map fun j => if j ∈ idxs then (1 : F) else 0, v⟩

/-- `Circuit::get_add_n_mul_mle`: panic if the layer index is out of bounds
(the literal `panic!` of circuit.rs), then build the add/mul index vectors
and turn each into a dense MLE of `compute_mle_num_var_from_layer_index
layer_index` variables. `input_len` is the raw-input length that the spec's
`next_layer_size` refers to at the innermost layer; the source helper
`get_gate_properties` receives the corresponding bit width through its
spec-modelled `n` parameter. -/
def Circuit.get_add_n_mul_mle (F : Type) [Zero F] [One F] (c : Circuit)
    (layer_index input_len : ℕ) : Panic (Multilinear F × Multilinear F) :=
  if layer_index ≥ c.layers.length then .panicked "Layer index out of bounds"
  else
    let mle_num_of_vars := compute_mle_num_var_from_layer_index layer_index
    .ok (usize_vec_to_mle F (addUsizeVec c layer_index input_len) mle_num_of_vars,
      usize_vec_to_mle F (mulUsizeVec c layer_index input_len) mle_num_of_vars)

/-- `FiatShamirTranscript` (fiat_shamir/src/lib.rs): the only state is the
Keccak256 hasher. The hasher is modelled observationally by the byte sequence
absorbed since the last reset; the compression itself is an arbitrary
function `H` passed to the operations below. -/
structure FiatShamirTranscript where
  hasher : List ℕ
deriving DecidableEq

/-- `append`: absorb a message into the hasher. -/
def FiatShamirTranscript.append (t : FiatShamirTranscript) (msg : List ℕ) :
    FiatShamirTranscript :=
  ⟨t.hasher ++ msg⟩

/-- `FiatShamirTranscript::new`: a fresh Keccak256 state with `msg` absorbed. -/
def FiatShamirTranscript.new (msg : List ℕ) : FiatShamirTranscript :=
  FiatShamirTranscript.append ⟨[]⟩ msg

/-- `sample`: finalize-and-reset the hasher (producing `H` of the absorbed
bytes), then absorb the response into the fresh state; return the response. -/
def FiatShamirTranscript.sample (H : List ℕ → List ℕ) (t : FiatShamirTranscript) :
    List ℕ × FiatShamirTranscript :=
  (H t.hasher, ⟨H t.hasher⟩)

/-- `sample_n`: push `n` successive samples, in call order. -/
def FiatShamirTranscript.sample_n (H : List ℕ → List ℕ) :
    ℕ → FiatShamirTranscript → List (List ℕ) × FiatShamirTranscript
  | 0, t => ([], t)
  | n + 1, t =>
    let r := FiatShamirTranscript.sample H t
    let rest := FiatShamirTranscript.sample_n H n r.2
    (r.1 :: rest.1, rest.2)

/-- A call against the transcript interface. -/
inductive FSOp where
  | append (msg : List ℕ) : FSOp
  | sample : FSOp
  | sampleN (n : ℕ) : FSOp

/-- Run a sequence of transcript calls, collecting every sampled value in
call order. -/
def runOps (H : List ℕ → List ℕ) :
    FiatShamirTranscript → List FSOp → List (List ℕ) × FiatShamirTranscript
  | t, [] => ([], t)
  | t, op :: ops =>
    match op with
    | .append m => runOps H (t.append m) ops
    | .sample =>
      let r := t.sample H
      let rest := runOps H r.2 ops
      (r.1 :: rest.1, rest.2)
    | .sampleN n =>
      let r := FiatShamirTranscript.sample_n H n t
      let rest := runOps H r.2 ops
      (r.1 ++ rest.1, rest.2)

/-- The transcript state after `n` successive `sample` calls. -/
def stateAfterSamples (H : List ℕ → List ℕ) :
    ℕ → FiatShamirTranscript → FiatShamirTranscript
  | 0, t => t
  | n + 1, t => stateAfterSamples H n (t.sample H).2

/-- The G1 group of the pairing (groth16/src/utils.rs) is cyclic of prime
order, generated by `g`; a point `g^s` is represented by its scalar exponent
`s` in the scalar field `F`, so the group identity (`G1::default()`) is `0`,
the generator is `1`, and `mul_bigint` by a scalar-field element is
multiplication in `F`. -/
def g1_generator {F : Type} [CommRing F] : F := 1

/-- `x.mul_bigint(s.into_bigint())`: scalar multiplication of the point `x`
by the scalar `s`, in the exponent representation. -/
def G1.mul_bigint {F : Type} [CommRing F] (x s : F) : F := s * x

/-- The `for _ in 1..n` loop of `generate_powers_of_tau_g1`: push
`generator.mul_bigint(tau_power)` and multiply the running power by `tau`,
`k` times. -/
def powersOfTauLoop {F : Type} [CommRing F] (tau : F) : F → ℕ → List F
  | _, 0 => []
  | tauPower, k + 1 =>
    G1.mul_bigint g1_generator tauPower :: powersOfTauLoop tau (tauPower * tau) k

/-- `generate_powers_of_tau_g1`: the generator first, then `g * tau^i` for
`i = 1 .. n-1`. -/
def generate_powers_of_tau_g1 {F : Type} [CommRing F] (tau : F) (n : ℕ) : List F :=
  g1_generator :: powersOfTauLoop tau tau (n - 1)

/-- The enumerated fold of `linear_combination_homomorphic_poly_eval_g1`:
`acc = acc + powers_of_secret_gx[index].mul_bigint(coeff)`, with the
unchecked index panicking when the polynomial has more coefficients than
there are powers. -/
def lincombLoop {F : Type} [CommRing F] (powers : List F) :
    ℕ → F → List F → Panic F
  | _, acc, [] => .ok acc
  | i, acc, c :: cs =>
    match powers[i]? with
    | some p => lincombLoop powers (i + 1) (acc + G1.mul_bigint p c) cs
    | none => .panicked "index out of bounds"

/-- `linear_combination_homomorphic_poly_eval_g1`: fold the polynomial's
coefficients against the powers of tau, starting from `G1::default()`. -/
def linear_combination_homomorphic_poly_eval_g1 {F : Type} [CommRing F]
    (coefficients : List F) (powers_of_secret_gx : List F) : Panic F :=
  lincombLoop powers_of_secret_gx 0 0 coefficients

/-- Evaluation of a univariate polynomial given by its coefficient list
(constant term first) at a point, used to state what the homomorphic fold
computes. -/
def UnivariantPolynomial.evalAt {F : Type} [CommRing F] (coefficients : List F)
    (x : F) : F :=
  coefficients.foldr (fun a acc => a + x * acc) 0

lemma le_pow_bitWidth (size : ℕ) : size ≤ 2 ^ bitWidth size := by
  unfold bitWidth
  cases hf : (List.range (size + 1)).find? fun k => size ≤ 2 ^ k with
  | none =>
    exfalso
    have := List.find?_eq_none.mp hf size (by simp)
    simp only [decide_eq_true_eq] at this
    exact this (le_of_lt (Nat.lt_two_pow size))
  | some k =>
    have := List.find?_some hf
    simpa using this

lemma bitWidth_le (size k : ℕ) (h : size ≤ 2 ^ k) : bitWidth size ≤ k := by
  unfold bitWidth
  cases hf : (List.range (size + 1)).find? fun k => size ≤ 2 ^ k with
  | none =>
    exfalso
    have := List.find?_eq_none.mp hf size (by simp)
    simp only [decide_eq_true_eq] at this
    exact this (le_of_lt (Nat.lt_two_pow size))
  | some k0 =>
    simp only [Option.getD_some]
    by_contra hlt
    push_neg at hlt
    have hk0 : k0 ∈ List.range (size + 1) := List.mem_of_find?_eq_some hf
    have hkmem : k ∈ List.range (size + 1) := by
      have hk0' := List.mem_range.mp hk0
      exact List.mem_range.mpr (by omega)
    obtain ⟨-, as, bs, hsplit, hfail⟩ := List.find?_eq_some.mp hf
    have hlenas : as.length = k0 := by
      have : (List.range (size + 1))[as.length]? = some k0 := by
        rw [hsplit]
        rw [List.getElem?_append_right (le_refl as.length)]
        simp
      have hlt2 : as.length < size + 1 := by
        by_contra hge
        push_neg at hge
        rw [List.getElem?_eq_none (by simpa using hge)] at this
        exact Option.noConfusion this
      rw [List.getElem?_range hlt2] at this
      exact (Option.some.injEq _ _).mp this
    have hkas : k ∈ as := by
      have : as = (List.range (size + 1)).take as.length := by
        rw [hsplit, List.take_left]
      rw [this, List.take_range]
      exact List.mem_range.mpr (by
        have := List.mem_range.mp hk0
        omega)
    have := hfail k hkas
    simp only [Bool.not_eq_true', decide_eq_false_iff_not] at this
    exact this h

/-- `bitWidth` is the ceiling base-2 logarithm. -/
lemma bitWidth_eq_clog (size : ℕ) : bitWidth size = Nat.clog 2 size :=
  le_antisymm (bitWidth_le _ _ (Nat.le_pow_clog one_lt_two _))
    ((Nat.le_pow_iff_clog_le one_lt_two).mp (le_pow_bitWidth _))

lemma evalLayer_ok {F : Type} [Add F] [Mul F] (cur : List F) :
    ∀ gs : List Gate, (∀ g ∈ gs, g.inputs.1 < cur.length ∧ g.inputs.2 < cur.length) →
      ∃ out : List F, evalLayer cur gs = .ok out ∧ out.length = gs.length := by
  intro gs
  induction gs with
  | nil => exact fun _ => ⟨[], rfl, rfl⟩
  | cons g gs ih =>
    intro h
    obtain ⟨h1, h2⟩ := h g (by simp)
    obtain ⟨out, hout, hlen⟩ := ih fun g hg => h g (by simp [hg])
    have hxv : cur[g.inputs.1]? = some cur[g.inputs.1] := List.getElem?_eq_getElem h1
    have hyv : cur[g.inputs.2]? = some cur[g.inputs.2] := List.getElem?_eq_getElem h2
    cases ht : g.g_type with
    | Add =>
      refine ⟨(cur[g.inputs.1] + cur[g.inputs.2]) :: out, ?_, by simp [hlen]⟩
      simp [evalLayer, evalGate, hxv, hyv, ht, hout]
    | Mul =>
      refine ⟨(cur[g.inputs.1] * cur[g.inputs.2]) :: out, ?_, by simp [hlen]⟩
      simp [evalLayer, evalGate, hxv, hyv, ht, hout]

lemma evaluateGo_ok {F : Type} [Add F] [Mul F] :
    ∀ (ls : List CircuitLayer) (cur : List F) (acc : List (List F)),
      chainValidB ls cur.length = true →
      ∃ outs : List (List F),
        evaluateGo ls cur acc = .ok (acc ++ outs) ∧
        outs.length = ls.length ∧
        ∀ j : ℕ, (outs[j]?).map List.length = (ls[j]?).map (fun l => l.layer.length) := by
  intro ls
  induction ls with
  | nil => exact fun cur acc _ => ⟨[], by simp [evaluateGo], rfl, by simp⟩
  | cons l rest ih =>
    intro cur acc h
    rw [chainValidB, Bool.and_eq_true] at h
    obtain ⟨h1, h2⟩ := h
    have hb : ∀ g ∈ l.layer, g.inputs.1 < cur.length ∧ g.inputs.2 < cur.length := by
      intro g hg
      have := (List.all_eq_true.mp h1) g hg
      rw [Bool.and_eq_true, decide_eq_true_iff, decide_eq_true_iff] at this
      exact this
    obtain ⟨out, hout, hlen⟩ := evalLayer_ok cur l.layer hb
    obtain ⟨outs, heq, hlens, hidx⟩ := ih out (acc ++ [out]) (by rw [hlen]; exact h2)
    refine ⟨out :: outs, ?_, by simp [hlens], ?_⟩
    · rw [evaluateGo, hout]
      show evaluateGo rest out (acc ++ [out]) = _
      rw [heq]
      simp
    · intro j
      cases j with
      | zero => simp [hlen]
      | succ j => simpa using hidx j

/-- C4: for every circuit and valid input, evaluation succeeds and the last
entry of the trace is the raw input vector, unchanged. -/
theorem evaluate_last_entry_is_input {F : Type} [Add F] [Mul F] (c : Circuit) (input : List F)
    (h : c.validInput input.length) :
    ∃ t : CircuitEvaluation F, Circuit.evaluate c input = .ok t ∧
      t.layers.getLast? = some input := by
  obtain ⟨outs, heq, _, _⟩ := evaluateGo_ok c.layers.reverse input [input] h
  refine ⟨⟨([input] ++ outs).reverse⟩, ?_, ?_⟩
  · unfold Circuit.evaluate
    rw [heq]
  · simp

/-- Witness for C4 on the scenario-1 circuit and input. -/
theorem evaluate_last_entry_is_input_witness :
    circuitOne.validInput (List.length ([2, 3, 4, 5] : List ℕ)) ∧
      ∃ t : CircuitEvaluation ℕ, Circuit.evaluate circuitOne [2, 3, 4, 5] = .ok t ∧
        t.layers.getLast? = some [2, 3, 4, 5] :=
  ⟨by decide, evaluate_last_entry_is_input circuitOne [2, 3, 4, 5] (by decide)⟩

/-- C5 counterexample: on the scenario-1 circuit, trace entry 1 has length 2
(the gate count of layer 1), not the length 1 of layer `k-1 = 0` that the
claim asserts. -/
theorem trace_entry_length_counterexample :
    (Circuit.evaluate circuitOne ([2, 3, 4, 5] : List ℕ)).map
        (fun t => (t.layers[1]?).map List.length) = .ok (some 2) ∧
      (circuitOne.layers[0]?).map (fun l => l.layer.length) = some 1 ∧ (2 : ℕ) ≠ 1 := by
  decide

/-- C5 as amended: the trace has `C.layers.len() + 1` entries; entry `k` for
`k < C.layers.len()` has length `C.layers[k].len()` (the gate count of layer
`k` itself, not of layer `k-1`), and the final entry is the raw input. -/
theorem evaluate_trace_shape {F : Type} [Add F] [Mul F] (c : Circuit) (input : List F)
    (h : c.validInput input.length) :
    ∃ t : CircuitEvaluation F, Circuit.evaluate c input = .ok t ∧
      t.layers.length = c.layers.length + 1 ∧
      (∀ k, k < c.layers.length →
        (t.layers[k]?).map List.length = (c.layers[k]?).map (fun l => l.layer.length)) ∧
      t.layers[c.layers.length]? = some input := by
  obtain ⟨outs, heq, hlen, hidx⟩ := evaluateGo_ok c.layers.reverse input [input] h
  rw [List.length_reverse] at hlen
  refine ⟨⟨([input] ++ outs).reverse⟩, ?_, ?_, ?_, ?_⟩
  · unfold Circuit.evaluate
    rw [heq]
  · simp [hlen]
  · intro k hk
    have hrev : ([input] ++ outs).reverse = outs.reverse ++ [input] := by simp
    have hk1 : k < outs.reverse.length := by
      rw [List.length_reverse, hlen]
      exact hk
    have hk2 : k < outs.length := by
      rw [hlen]
      exact hk
    have e3 := hidx (c.layers.length - 1 - k)
    rw [List.getElem?_reverse (show c.layers.length - 1 - k < c.layers.length by omega)] at e3
    have hix : c.layers.length - 1 - (c.layers.length - 1 - k) = k := by omega
    rw [hix] at e3
    show (([input] ++ outs).reverse[k]?).map List.length = _
    rw [hrev, List.getElem?_append_left hk1, List.getElem?_reverse hk2, hlen]
    exact e3
  · have hrev : ([input] ++ outs).reverse = outs.reverse ++ [input] := by simp
    rw [hrev, List.getElem?_append_right (by simp [hlen])]
    simp [hlen]

/-- Witness for the amended C5 on the scenario-1 circuit and input. -/
theorem evaluate_trace_shape_witness :
    circuitOne.validInput (List.length ([2, 3, 4, 5] : List ℕ)) ∧
      ∃ t : CircuitEvaluation ℕ, Circuit.evaluate circuitOne [2, 3, 4, 5] = .ok t ∧
        t.layers.length = circuitOne.layers.length + 1 ∧
        (∀ k, k < circuitOne.layers.length →
          (t.layers[k]?).map List.length =
            (circuitOne.layers[k]?).map (fun l => l.layer.length)) ∧
        t.layers[circuitOne.layers.length]? = some [2, 3, 4, 5] :=
  ⟨by decide, evaluate_trace_shape circuitOne [2, 3, 4, 5] (by decide)⟩

/-- C8: on the two-layer Add-then-Mul circuit of scenario 1, evaluation of the
input `[2,3,4,5]` returns the trace `[[100],[5,20],[2,3,4,5]]`. -/
theorem circuit_one_evaluation :
    Circuit.evaluate circuitOne ([2, 3, 4, 5] : List ℕ) =
      .ok ⟨[[100], [5, 20], [2, 3, 4, 5]]⟩ := by
  decide

/-- C2: on a circuit whose gate references input index 5 of a length-2 input
vector, `evaluate` panics through the unchecked slice index; no explicit
`IndexOutOfRange` failure value is produced. -/
theorem evaluate_out_of_range_panics :
    Circuit.evaluate circuitBadIndex ([1, 2] : List ℕ) =
      .panicked "index out of bounds" := by
  decide

/-- C3: requesting the wiring MLEs of layer index 2 of a two-layer circuit
panics with the literal `panic!` message of circuit.rs; no `LayerIndexOutOfRange`
failure value is returned to the caller. -/
theorem get_add_n_mul_mle_out_of_range_panics :
    Circuit.get_add_n_mul_mle ℤ circuitOne 2 4 =
      .panicked "Layer index out of bounds" := by
  decide

/-- C1: on the scenario-2 circuit (layer 0 has 2 gates and reads a 4-entry
layer, so `m = 1`, `n = 2`, `m + 2n = 5`), both returned MLEs have
`compute_mle_num_var_from_layer_index 0 = 2` variables: the variable count is
a function of the layer index alone and misses the actual structural sizes. -/
theorem mle_num_vars_ignores_layer_sizes :
    (Circuit.get_add_n_mul_mle ℤ circuitTwo 0 4).map
        (fun pr => (pr.1.num_vars, pr.2.num_vars)) = .ok (2, 2) ∧
      bitWidth (circuitTwo.layers.getD 0 ⟨[]⟩).layer.length +
        2 * bitWidth (nextLayerSize circuitTwo 0 4) = 5 ∧
      (2 : ℕ) ≠ 5 := by
  decide

/-- C7: gate 1 of layer 0 of the scenario-2 circuit is a Mul gate with inputs
(2, 3); its boolean encoding point over `m + 2n = 5` bits is `[1,1,0,1,1]`
(index 27), but the returned `mul_i` has only 2 variables, so evaluating it
at that point yields `none` rather than the multiplicative identity the
wiring-predicate correctness property requires. -/
theorem wiring_mle_wrong_dimension_at_gate_point :
    (circuitTwo.layers.getD 0 ⟨[]⟩).layer.getD 1 ⟨.Add, (0, 0)⟩ =
        ⟨.Mul, (2, 3)⟩ ∧
      (Circuit.get_add_n_mul_mle ℤ circuitTwo 0 4).map
        (fun pr => (pr.2.num_vars, pr.2.evaluate [1, 1, 0, 1, 1])) =
          .ok (2, none) ∧
      (none : Option ℤ) ≠ some 1 := by
  decide

lemma get_gate_properties_shiftRight (n i a b : ℕ) (ha : a < 2 ^ n) (hb : b < 2 ^ n) :
    get_gate_properties n i a b >>> (2 * n) = i := by
  have hlow : a <<< n ||| b < 2 ^ (2 * n) := by
    apply Nat.or_lt_two_pow
    · rw [Nat.shiftLeft_eq]
      calc a * 2 ^ n < 2 ^ n * 2 ^ n :=
            Nat.mul_lt_mul_of_lt_of_le ha (le_refl _) (Nat.pos_pow_of_pos n (by norm_num))
        _ = 2 ^ (2 * n) := by rw [← pow_add]; ring_nf
    · exact lt_of_lt_of_le hb (Nat.pow_le_pow_right (by norm_num) (by omega))
  rw [get_gate_properties, Nat.or_assoc]
  apply Nat.eq_of_testBit_eq
  intro k
  rw [Nat.testBit_shiftRight, Nat.testBit_or, Nat.testBit_shiftLeft]
  have hfb : (a <<< n ||| b).testBit (2 * n + k) = false :=
    Nat.testBit_lt_two_pow
      (lt_of_lt_of_le hlow (Nat.pow_le_pow_right (by norm_num) (by omega)))
  rw [hfb]
  simp [Nat.le_add_right, Nat.add_sub_cancel_left]

lemma collectGateProps_length (n : ℕ) : ∀ (gs : List Gate) (i : ℕ),
    (collectGateProps n i gs).1.length + (collectGateProps n i gs).2.length =
      gs.length := by
  intro gs
  induction gs with
  | nil => intro i; rfl
  | cons g gs ih =>
    intro i
    cases hg : g.g_type with
    | Add =>
      simp only [collectGateProps, hg, List.length_cons]
      have := ih (i + 1)
      omega
    | Mul =>
      simp only [collectGateProps, hg, List.length_cons]
      have := ih (i + 1)
      omega

lemma collectGateProps_ge (n : ℕ) : ∀ (gs : List Gate) (i0 : ℕ),
    (∀ g ∈ gs, g.inputs.1 < 2 ^ n ∧ g.inputs.2 < 2 ^ n) →
    ∀ x, x ∈ (collectGateProps n i0 gs).1 ∨ x ∈ (collectGateProps n i0 gs).2 →
      i0 ≤ x >>> (2 * n) := by
  intro gs
  induction gs with
  | nil => intro i0 _ x hx; rcases hx with hx | hx <;> exact absurd hx (List.not_mem_nil x)
  | cons g gs ih =>
    intro i0 hb x hx
    obtain ⟨hb1, hb2⟩ := hb g (by simp)
    have hbrest : ∀ g ∈ gs, g.inputs.1 < 2 ^ n ∧ g.inputs.2 < 2 ^ n :=
      fun g hg => hb g (by simp [hg])
    have henc : get_gate_properties n i0 g.inputs.1 g.inputs.2 >>> (2 * n) = i0 :=
      get_gate_properties_shiftRight n i0 _ _ hb1 hb2
    cases hg : g.g_type with
    | Add =>
      simp only [collectGateProps, hg] at hx
      rcases hx with hx | hx
      · rcases List.mem_cons.mp hx with hx | hx
        · rw [hx, henc]
        · have := ih (i0 + 1) hbrest x (Or.inl hx)
          omega
      · have := ih (i0 + 1) hbrest x (Or.inr hx)
        omega
    | Mul =>
      simp only [collectGateProps, hg] at hx
      rcases hx with hx | hx
      · have := ih (i0 + 1) hbrest x (Or.inl hx)
        omega
      · rcases List.mem_cons.mp hx with hx | hx
        · rw [hx, henc]
        · have := ih (i0 + 1) hbrest x (Or.inr hx)
          omega

lemma collectGateProps_disjoint (n : ℕ) : ∀ (gs : List Gate) (i0 : ℕ),
    (∀ g ∈ gs, g.inputs.1 < 2 ^ n ∧ g.inputs.2 < 2 ^ n) →
    ∀ x, x ∈ (collectGateProps n i0 gs).1 → x ∉ (collectGateProps n i0 gs).2 := by
  intro gs
  induction gs with
  | nil => intro i0 _ x hx; exact absurd hx (List.not_mem_nil x)
  | cons g gs ih =>
    intro i0 hb x hx hx'
    obtain ⟨hb1, hb2⟩ := hb g (by simp)
    have hbrest : ∀ g ∈ gs, g.inputs.1 < 2 ^ n ∧ g.inputs.2 < 2 ^ n :=
      fun g hg => hb g (by simp [hg])
    have henc : get_gate_properties n i0 g.inputs.1 g.inputs.2 >>> (2 * n) = i0 :=
      get_gate_properties_shiftRight n i0 _ _ hb1 hb2
    cases hg : g.g_type with
    | Add =>
      simp only [collectGateProps, hg] at hx hx'
      rcases List.mem_cons.mp hx with hx | hx
      · have := collectGateProps_ge n gs (i0 + 1) hbrest x (Or.inr hx')
        rw [hx, henc] at this
        omega
      · exact ih (i0 + 1) hbrest x hx hx'
    | Mul =>
      simp only [collectGateProps, hg] at hx hx'
      rcases List.mem_cons.mp hx' with hx' | hx'
      · have := collectGateProps_ge n gs (i0 + 1) hbrest x (Or.inl hx)
        rw [hx', henc] at this
        omega
      · exact ih (i0 + 1) hbrest x hx hx'

lemma collectGateProps_nodup (n : ℕ) : ∀ (gs : List Gate) (i0 : ℕ),
    (∀ g ∈ gs, g.inputs.1 < 2 ^ n ∧ g.inputs.2 < 2 ^ n) →
    (collectGateProps n i0 gs).1.Nodup ∧ (collectGateProps n i0 gs).2.Nodup := by
  intro gs
  induction gs with
  | nil => intro i0 _; exact ⟨List.nodup_nil, List.nodup_nil⟩
  | cons g gs ih =>
    intro i0 hb
    obtain ⟨hb1, hb2⟩ := hb g (by simp)
    have hbrest : ∀ g ∈ gs, g.inputs.1 < 2 ^ n ∧ g.inputs.2 < 2 ^ n :=
      fun g hg => hb g (by simp [hg])
    have henc : get_gate_properties n i0 g.inputs.1 g.inputs.2 >>> (2 * n) = i0 :=
      get_gate_properties_shiftRight n i0 _ _ hb1 hb2
    obtain ⟨ihl, ihr⟩ := ih (i0 + 1) hbrest
    cases hg : g.g_type with
    | Add =>
      simp only [collectGateProps, hg]
      refine ⟨List.nodup_cons.mpr ⟨fun hmem => ?_, ihl⟩, ihr⟩
      have := collectGateProps_ge n gs (i0 + 1) hbrest _ (Or.inl hmem)
      rw [henc] at this
      omega
    | Mul =>
      simp only [collectGateProps, hg]
      refine ⟨ihl, List.nodup_cons.mpr ⟨fun hmem => ?_, ihr⟩⟩
      have := collectGateProps_ge n gs (i0 + 1) hbrest _ (Or.inr hmem)
      rw [henc] at this
      omega

/-- C6: under the §3 index invariant, the add and mul hypercube index sets
built for a layer are disjoint, and together they have exactly one element
per gate of the layer. -/
theorem wiring_index_sets_partition (c : Circuit) (layer_index input_len : ℕ)
    (_hl : layer_index < c.layers.length)
    (hv : ∀ g ∈ (c.layers.getD layer_index ⟨[]⟩).layer,
      g.inputs.1 < nextLayerSize c layer_index input_len ∧
        g.inputs.2 < nextLayerSize c layer_index input_len) :
    (addUsizeVec c layer_index input_len).toFinset ∩
        (mulUsizeVec c layer_index input_len).toFinset = ∅ ∧
      ((addUsizeVec c layer_index input_len).toFinset ∪
          (mulUsizeVec c layer_index input_len).toFinset).card =
        (c.layers.getD layer_index ⟨[]⟩).layer.length := by
  set L := (c.layers.getD layer_index ⟨[]⟩).layer with hL
  set N := bitWidth (nextLayerSize c layer_index input_len) with hN
  have hb : ∀ g ∈ L, g.inputs.1 < 2 ^ N ∧ g.inputs.2 < 2 ^ N := by
    intro g hg
    have h2 := le_pow_bitWidth (nextLayerSize c layer_index input_len)
    obtain ⟨h1, h1'⟩ := hv g hg
    exact ⟨lt_of_lt_of_le h1 h2, lt_of_lt_of_le h1' h2⟩
  have hdisj := collectGateProps_disjoint N L 0 hb
  have hnd := collectGateProps_nodup N L 0 hb
  have hlen := collectGateProps_length N L 0
  have hempty : (addUsizeVec c layer_index input_len).toFinset ∩
      (mulUsizeVec c layer_index input_len).toFinset = ∅ := by
    rw [Finset.eq_empty_iff_forall_not_mem]
    intro x hx
    obtain ⟨hx1, hx2⟩ := Finset.mem_inter.mp hx
    exact hdisj x (List.mem_toFinset.mp hx1) (List.mem_toFinset.mp hx2)
  refine ⟨hempty, ?_⟩
  have ha : addUsizeVec c layer_index input_len = (collectGateProps N 0 L).1 := rfl
  have hm : mulUsizeVec c layer_index input_len = (collectGateProps N 0 L).2 := rfl
  rw [Finset.card_union_of_disjoint (Finset.disjoint_iff_inter_eq_empty.mpr hempty),
    ha, hm, List.toFinset_card_of_nodup hnd.1, List.toFinset_card_of_nodup hnd.2]
  exact hlen

/-- Witness for C6 on the innermost layer of the scenario-1 circuit with
input length 4. -/
theorem wiring_index_sets_partition_witness :
    1 < circuitOne.layers.length ∧
      (∀ g ∈ (circuitOne.layers.getD 1 ⟨[]⟩).layer,
        g.inputs.1 < nextLayerSize circuitOne 1 4 ∧
          g.inputs.2 < nextLayerSize circuitOne 1 4) ∧
      (addUsizeVec circuitOne 1 4).toFinset ∩
          (mulUsizeVec circuitOne 1 4).toFinset = ∅ ∧
        ((addUsizeVec circuitOne 1 4).toFinset ∪
            (mulUsizeVec circuitOne 1 4).toFinset).card =
          (circuitOne.layers.getD 1 ⟨[]⟩).layer.length :=
  ⟨by decide, by decide,
    wiring_index_sets_partition circuitOne 1 4 (by decide) (by decide)⟩

lemma sample_n_mem (H : List ℕ → List ℕ) : ∀ (n : ℕ) (t : FiatShamirTranscript)
    (out : List ℕ), out ∈ (FiatShamirTranscript.sample_n H n t).1 → ∃ s, out = H s := by
  intro n
  induction n with
  | zero => intro t out hmem; exact absurd hmem (List.not_mem_nil out)
  | succ n ih =>
    intro t out hmem
    rcases List.mem_cons.mp hmem with h | h
    · exact ⟨t.hasher, h⟩
    · exact ih _ out h

lemma runOps_mem (H : List ℕ → List ℕ) : ∀ (ops : List FSOp) (t : FiatShamirTranscript)
    (out : List ℕ), out ∈ (runOps H t ops).1 → ∃ s, out = H s := by
  intro ops
  induction ops with
  | nil => intro t out hmem; exact absurd hmem (List.not_mem_nil out)
  | cons op ops ih =>
    intro t out hmem
    cases op with
    | append m => exact ih _ out hmem
    | sample =>
      rcases List.mem_cons.mp hmem with h | h
      · exact ⟨t.hasher, h⟩
      · exact ih _ out h
    | sampleN n =>
      rcases List.mem_append.mp hmem with h | h
      · exact sample_n_mem H n t out h
      · exact ih _ out h

lemma sample_n_spec (H : List ℕ → List ℕ) : ∀ (n : ℕ) (t : FiatShamirTranscript),
    (FiatShamirTranscript.sample_n H n t).1.length = n ∧
      (∀ i, i < n → (FiatShamirTranscript.sample_n H n t).1[i]? =
        some (FiatShamirTranscript.sample H (stateAfterSamples H i t)).1) ∧
      (FiatShamirTranscript.sample_n H n t).2 = stateAfterSamples H n t := by
  intro n
  induction n with
  | zero => exact fun t => ⟨rfl, fun i hi => absurd hi (Nat.not_lt_zero i), rfl⟩
  | succ n ih =>
    intro t
    obtain ⟨ihlen, ihidx, ihst⟩ := ih (FiatShamirTranscript.sample H t).2
    have hstep : FiatShamirTranscript.sample_n H (n + 1) t =
        ((FiatShamirTranscript.sample H t).1 ::
          (FiatShamirTranscript.sample_n H n (FiatShamirTranscript.sample H t).2).1,
          (FiatShamirTranscript.sample_n H n (FiatShamirTranscript.sample H t).2).2) := by
      simp [FiatShamirTranscript.sample_n]
    refine ⟨?_, ?_, ?_⟩
    · rw [hstep]
      simp [ihlen]
    · intro i hi
      cases i with
      | zero =>
        rw [hstep]
        simp [stateAfterSamples]
      | succ i =>
        rw [hstep]
        simp only [List.getElem?_cons_succ]
        rw [ihidx i (by omega)]
        have hs : stateAfterSamples H (i + 1) t =
            stateAfterSamples H i (FiatShamirTranscript.sample H t).2 := by
          simp [stateAfterSamples]
        rw [hs]
    · rw [hstep]
      have hs : stateAfterSamples H (n + 1) t =
          stateAfterSamples H n (FiatShamirTranscript.sample H t).2 := by
        simp [stateAfterSamples]
      rw [hs, ← ihst]

/-- C9: a transcript is deterministic — two transcripts built from the same
initial message give identical results on identical call sequences, every
sampled value is a 32-byte digest (one application of the hash compression),
and `sample_n n` returns exactly `n` values, the `i`-th being the `sample`
taken after `i` preceding samples. -/
theorem transcript_deterministic_and_sample_n (H : List ℕ → List ℕ)
    (msg : List ℕ) (ops : List FSOp) (n : ℕ) (t1 t2 : FiatShamirTranscript)
    (h1 : t1 = FiatShamirTranscript.new msg)
    (h2 : t2 = FiatShamirTranscript.new msg)
    (hH : ∀ s, (H s).length = 32) :
    runOps H t1 ops = runOps H t2 ops ∧
      (∀ out ∈ (runOps H t1 ops).1, out.length = 32) ∧
      (FiatShamirTranscript.sample_n H n t1).1.length = n ∧
      (∀ i, i < n → (FiatShamirTranscript.sample_n H n t1).1[i]? =
        some (FiatShamirTranscript.sample H (stateAfterSamples H i t1)).1) ∧
      (FiatShamirTranscript.sample_n H n t1).2 = stateAfterSamples H n t1 := by
  subst h1
  subst h2
  obtain ⟨hlen, hidx, hst⟩ := sample_n_spec H n (FiatShamirTranscript.new msg)
  refine ⟨rfl, ?_, hlen, hidx, hst⟩
  intro out hmem
  obtain ⟨s, hs⟩ := runOps_mem H ops _ out hmem
  rw [hs]
  exact hH s

/-- Witness for C9 with the constant 32-byte compression, initial message
`[1]`, and the call sequence append `[2]`; sample; sample_n 2. -/
theorem transcript_deterministic_and_sample_n_witness :
    (∀ s, ((fun _ : List ℕ => List.replicate 32 0) s).length = 32) ∧
      (runOps (fun _ => List.replicate 32 0) (FiatShamirTranscript.new [1])
          [.append [2], .sample, .sampleN 2] =
        runOps (fun _ => List.replicate 32 0) (FiatShamirTranscript.new [1])
          [.append [2], .sample, .sampleN 2] ∧
        (∀ out ∈ (runOps (fun _ => List.replicate 32 0)
            (FiatShamirTranscript.new [1]) [.append [2], .sample, .sampleN 2]).1,
          out.length = 32) ∧
        (FiatShamirTranscript.sample_n (fun _ => List.replicate 32 0) 2
            (FiatShamirTranscript.new [1])).1.length = 2 ∧
        (∀ i, i < 2 → (FiatShamirTranscript.sample_n (fun _ => List.replicate 32 0) 2
            (FiatShamirTranscript.new [1])).1[i]? =
          some (FiatShamirTranscript.sample (fun _ => List.replicate 32 0)
            (stateAfterSamples (fun _ => List.replicate 32 0) i
              (FiatShamirTranscript.new [1]))).1) ∧
        (FiatShamirTranscript.sample_n (fun _ => List.replicate 32 0) 2
            (FiatShamirTranscript.new [1])).2 =
          stateAfterSamples (fun _ => List.replicate 32 0) 2
            (FiatShamirTranscript.new [1])) :=
  ⟨fun _ => List.length_replicate 32 0,
    transcript_deterministic_and_sample_n (fun _ => List.replicate 32 0) [1]
      [.append [2], .sample, .sampleN 2] 2 _ _ rfl rfl
      (fun _ => List.length_replicate 32 0)⟩

lemma powersOfTauLoop_getElem {F : Type} [CommRing F] (tau : F) :
    ∀ (k : ℕ) (p : F) (i : ℕ), i < k →
      (powersOfTauLoop tau p k)[i]? = some (p * tau ^ i) := by
  intro k
  induction k with
  | zero => intro p i hi; omega
  | succ k ih =>
    intro p i hi
    cases i with
    | zero => simp [powersOfTauLoop, G1.mul_bigint, g1_generator]
    | succ i =>
      have hstep : powersOfTauLoop tau p (k + 1) =
          G1.mul_bigint g1_generator p :: powersOfTauLoop tau (p * tau) k := by
        simp [powersOfTauLoop]
      rw [hstep]
      simp only [List.getElem?_cons_succ]
      rw [ih (p * tau) i (by omega)]
      congr 1
      ring

lemma generate_powers_getElem {F : Type} [CommRing F] (tau : F) (n i : ℕ)
    (hi : i < n) :
    (generate_powers_of_tau_g1 tau n)[i]? =
      some (G1.mul_bigint g1_generator (tau ^ i)) := by
  cases i with
  | zero => simp [generate_powers_of_tau_g1, G1.mul_bigint, g1_generator]
  | succ i =>
    show (g1_generator :: powersOfTauLoop tau tau (n - 1))[i + 1]? = _
    simp only [List.getElem?_cons_succ]
    rw [powersOfTauLoop_getElem tau (n - 1) tau i (by omega)]
    congr 1
    simp [G1.mul_bigint, g1_generator]
    ring

lemma lincombLoop_spec {F : Type} [CommRing F] (tau : F) (nn : ℕ) :
    ∀ (cs : List F) (i : ℕ) (acc : F), i + cs.length ≤ nn →
      lincombLoop (generate_powers_of_tau_g1 tau nn) i acc cs =
        .ok (acc + tau ^ i * UnivariantPolynomial.evalAt cs tau) := by
  intro cs
  induction cs with
  | nil =>
    intro i acc _
    simp [lincombLoop, UnivariantPolynomial.evalAt]
  | cons c cs ih =>
    intro i acc hle
    have hp := generate_powers_getElem tau nn i (by simp at hle; omega)
    have hstep : lincombLoop (generate_powers_of_tau_g1 tau nn) i acc (c :: cs) =
        lincombLoop (generate_powers_of_tau_g1 tau nn) (i + 1)
          (acc + G1.mul_bigint (G1.mul_bigint g1_generator (tau ^ i)) c) cs := by
      rw [lincombLoop, hp]
    rw [hstep, ih (i + 1) _ (by simp at hle ⊢; omega)]
    have heval : UnivariantPolynomial.evalAt (c :: cs) tau =
        c + tau * UnivariantPolynomial.evalAt cs tau := by
      simp [UnivariantPolynomial.evalAt]
    rw [heval]
    congr 1
    simp only [G1.mul_bigint, g1_generator]
    ring

/-- C10: entry `i` of `generate_powers_of_tau_g1 tau n` is the generator
multiplied by `tau ^ i`, and folding a polynomial's coefficients against
those powers yields the generator multiplied by the polynomial's value at
`tau` — the homomorphic evaluation the trusted setup relies on. -/
theorem powers_of_tau_linear_combination {F : Type} [CommRing F] (tau : F)
    (n : ℕ) (coefficients : List F) (_hn : 1 ≤ n)
    (hlen : coefficients.length < n) :
    (∀ i, i < n → (generate_powers_of_tau_g1 tau n)[i]? =
      some (G1.mul_bigint g1_generator (tau ^ i))) ∧
      linear_combination_homomorphic_poly_eval_g1 coefficients
          (generate_powers_of_tau_g1 tau n) =
        .ok (G1.mul_bigint g1_generator
          (UnivariantPolynomial.evalAt coefficients tau)) := by
  constructor
  · exact fun i hi => generate_powers_getElem tau n i hi
  · rw [linear_combination_homomorphic_poly_eval_g1,
      lincombLoop_spec tau n coefficients 0 0 (by omega)]
    congr 1
    simp [G1.mul_bigint, g1_generator]

/-- Witness for C10 over ℤ with `tau = 5`, `n = 4` and the polynomial
`1 + 3x + 2x^2` of the repository's own test. -/
theorem powers_of_tau_linear_combination_witness :
    ((1 : ℕ) ≤ 4 ∧ ([1, 3, 2] : List ℤ).length < 4) ∧
      ((∀ i, i < 4 → (generate_powers_of_tau_g1 (5 : ℤ) 4)[i]? =
        some (G1.mul_bigint g1_generator ((5 : ℤ) ^ i))) ∧
        linear_combination_homomorphic_poly_eval_g1 ([1, 3, 2] : List ℤ)
            (generate_powers_of_tau_g1 5 4) =
          .ok (G1.mul_bigint g1_generator
            (UnivariantPolynomial.evalAt [1, 3, 2] 5))) :=
  ⟨⟨by decide, by decide⟩,
    powers_of_tau_linear_combination (5 : ℤ) 4 [1, 3, 2] (by decide) (by decide)⟩
